import Mathlib

/-!
Verification of the design-phase dashboard pipeline (`app.py`): the tabular
record model, phase-interval derivation, active-today detection, text filters,
sort orderings, label construction and the summary metrics.

Python strings are modelled as lists of Unicode code points, pandas timestamps
as integers (only their total order is used), and a missing value (pandas
NaN / NaT, absent cell) as `none`.
-/

/-- Calendar dates: pandas `Timestamp` values are totally ordered; the pipeline
only compares them, so they are modelled as integers on a time line. -/
abbrev Date := Int

/-- Python strings as lists of Unicode code points. -/
abbrev Str := List Nat

/-- Code points of a Lean string literal, used to write concrete Python
strings (`cp "abc" = [97, 98, 99]`). -/
def cp (s : String) : Str := s.data.map Char.toNat

/-- The four fixed design phases, in the order of the `phases` lists in
`app.py` (lines 99-104, 149-154, 190-195). -/
inductive Phase where
  | programming
  | schematicDesign
  | designDevelopment
  | constructionDocuments
deriving DecidableEq, Repr

/-- Position of a phase in the fixed order 0..3. -/
def phaseIdx : Phase → Nat
  | .programming => 0
  | .schematicDesign => 1
  | .designDevelopment => 2
  | .constructionDocuments => 3

/-- A Python float rendered by `repr` in plain decimal form: optional sign,
integer-part digits (`repr` prints no leading zeros, so a `Nat` suffices), and
a nonempty run of fractional digits (`repr` of a float always shows at least
one digit after the dot, e.g. `42.0`).  Exponent-form representations are
outside this model. -/
structure PyFloat where
  neg : Bool
  ip : Nat
  fd : Fin 10
  fmore : List (Fin 10)
deriving DecidableEq, Repr

/-- Value of a `Project #` cell: Smartsheet numeric cells arrive as Python
floats, text cells as strings. -/
inductive PyNum where
  | flt (f : PyFloat)
  | txt (s : Str)
deriving DecidableEq, Repr

/-- Decimal digit code points of a natural number with explicit recursion
depth (the depth only needs to exceed the number of digits; it is consumed
once per division by 10). -/
def natDigitsAux : Nat → Nat → List Nat
  | 0, n => [48 + n % 10]
  | fuel + 1, n => if n < 10 then [48 + n] else natDigitsAux fuel (n / 10) ++ [48 + n % 10]

/-- Decimal digit code points of a natural number, most significant digit
first: the code points of Python `str(n)` (`n` itself is always enough
recursion depth). -/
def natDigits (n : Nat) : List Nat := natDigitsAux n n

/-- Code points of Python `str(i)` for an integer (minus sign 45, then
digits). -/
def intCp (i : Int) : Str :=
  if i < 0 then 45 :: natDigits i.natAbs else natDigits i.toNat

/-- Code point of a decimal digit. -/
def digCp (d : Fin 10) : Nat := 48 + d.val

/-- Python `repr` / `str` of a float value in plain decimal form: sign (code
point 45), integer digits, the dot (code point 46), fractional digits. -/
def pyFloatStr (f : PyFloat) : Str :=
  (if f.neg then [45] else []) ++ natDigits f.ip ++ [46] ++ (f.fd :: f.fmore).map digCp

/-- Python `str(x)` of a `Project #` cell value. -/
def pyNumStr : PyNum → Str
  | .flt f => pyFloatStr f
  | .txt s => s

/-- ASCII decimal digit test on one code point. -/
def isDigitCp (c : Nat) : Bool := 48 ≤ c && c ≤ 57

/-- Python `str.isdigit` (restricted to ASCII digits, the only digits that
appear in the data considered): nonempty and all characters decimal digits. -/
def isdigitStr (s : Str) : Bool := !s.isEmpty && s.all isDigitCp

/-- Python `s.replace(".", "", 1)`: drop the first dot (code point 46), keep
everything else. -/
def removeDot1 : Str → Str
  | [] => []
  | c :: t => if c = 46 then t else c :: removeDot1 t

/-- Numeric value of an all-digit code point string. -/
def digitVal (s : Str) : Nat := s.foldl (fun a c => 10 * a + (c - 48)) 0

/-- Python `int(s)` on the text strings that can reach it in `app.py`: the
guard `str(x).replace(".", "", 1).isdigit()` only lets through digit strings
with at most one dot, and on those `int` succeeds exactly when no dot is left
(`int("42")` is 42 while `int("42.0")` raises `ValueError`, modelled as
`none`). -/
def pyIntOfTxt (s : Str) : Option Int :=
  if isdigitStr s then some (digitVal s) else none

/-- Python `int(x)` on a cell value: floats truncate toward zero (which is the
signed integer part of the decimal representation), text parses as
`pyIntOfTxt`. -/
def pyInt : PyNum → Option Int
  | .flt f => some (if f.neg then -(f.ip : Int) else (f.ip : Int))
  | .txt s => pyIntOfTxt s

/-- One row of the Smartsheet table after the date-coercion loop (`app.py`
lines 30-40): `Project Name`, `Project #`, `Design Manager Name` and the five
milestone date columns, each possibly missing. -/
structure Row where
  projectName : Option Str
  projectNumber : Option PyNum
  designManager : Option Str
  d0 : Option Date
  d1 : Option Date
  d2 : Option Date
  d3 : Option Date
  d4 : Option Date
deriving DecidableEq, Repr

/-- The five milestone date columns in their semantic order (Programming
Start, Schematic Design Start, Design Development Start, Construction Document
Start, Permit Set Delivery). -/
def mdates (r : Row) : List (Option Date) := [r.d0, r.d1, r.d2, r.d3, r.d4]

/-- The fixed phase enumeration in order 0..3. -/
def phaseOrder : List Phase :=
  [.programming, .schematicDesign, .designDevelopment, .constructionDocuments]

/-- One derived Gantt bar interval (`records` entries, `app.py` lines
157-162), with the project label handled separately. -/
structure PhaseInterval where
  phase : Phase
  start : Date
  finish : Date
deriving DecidableEq, Repr

/-- The `phases` list built for each row (`app.py` lines 99-104 and 149-154):
each phase with its candidate start milestone and the next milestone as end. -/
def phaseBounds (r : Row) : List (Phase × Option Date × Option Date) :=
  [ (.programming, r.d0, r.d1)
  , (.schematicDesign, r.d1, r.d2)
  , (.designDevelopment, r.d2, r.d3)
  , (.constructionDocuments, r.d3, r.d4) ]

/-- One step of the Interval Deriver (`app.py` lines 155-162): a phase entry
becomes an interval exactly when both bounding dates are non-null. -/
def pbIv : Phase × Option Date × Option Date → Option PhaseInterval
  | (p, some s, some e) => some ⟨p, s, e⟩
  | _ => none

/-- Interval Deriver (`app.py` lines 155-162): one interval per phase whose
two bounding milestone dates are both non-null, in fixed phase order, with no
check that `start <= end`. -/
def deriveIntervals (r : Row) : List PhaseInterval :=
  (phaseBounds r).filterMap pbIv

/-- Half-open containment test of `app.py` line 106 / line 196:
`start <= d < end`. -/
def ivActive (d : Date) (iv : PhaseInterval) : Bool :=
  decide (iv.start ≤ d) && decide (d < iv.finish)

/-- The loop-body condition of `app.py` lines 105-106 and 196: both dates
non-null and the reference date inside the half-open interval. -/
def pbCheck (d : Date) : Phase × Option Date × Option Date → Bool
  | (_, some s, some e) => decide (s ≤ d) && decide (d < e)
  | _ => false

/-- The `Active Today` helper column (`app.py` lines 97-108): the per-row loop
with `break` sets the flag exactly when some phase passes the condition. -/
def activeTodayFlag (d : Date) (r : Row) : Bool :=
  (phaseBounds r).any (pbCheck d)

/-- The `Show Only Active Today` filter (`app.py` lines 110-111). -/
def applyActiveFilter (d : Date) (l : List Row) : List Row :=
  l.filter (activeTodayFlag d)

/-- The active flag of a row holds exactly when some derived interval of the
row contains the reference date (half-open). -/
theorem activeTodayFlag_iff (d : Date) (r : Row) :
    activeTodayFlag d r = true ↔
      ∃ iv ∈ deriveIntervals r, iv.start ≤ d ∧ d < iv.finish := by
  obtain ⟨n, num, m, d0, d1, d2, d3, d4⟩ := r
  cases d0 <;> cases d1 <;> cases d2 <;> cases d3 <;> cases d4 <;>
    simp [activeTodayFlag, deriveIntervals, phaseBounds, pbIv, pbCheck]

/-- Membership in the derived interval list is exactly presence of the two
bounding milestone dates. -/
theorem mem_deriveIntervals (r : Row) (i : Fin 4) (s e : Date) :
    (⟨phaseOrder.getD i.val .programming, s, e⟩ : PhaseInterval) ∈
        deriveIntervals r ↔
      (mdates r).getD i.val none = some s ∧ (mdates r).getD (i.val + 1) none = some e := by
  obtain ⟨n, num, m, d0, d1, d2, d3, d4⟩ := r
  fin_cases i <;>
    cases d0 <;> cases d1 <;> cases d2 <;> cases d3 <;> cases d4 <;>
      simp [deriveIntervals, phaseBounds, mdates, phaseOrder, pbIv, eq_comm]

/-- The number of derived intervals is the number of adjacent pairs of present
milestone dates. -/
theorem length_deriveIntervals (r : Row) :
    (deriveIntervals r).length =
      ((List.range 4).filter
        (fun j => ((mdates r).getD j none).isSome &&
          ((mdates r).getD (j + 1) none).isSome)).length := by
  obtain ⟨n, num, m, d0, d1, d2, d3, d4⟩ := r
  cases d0 <;> cases d1 <;> cases d2 <;> cases d3 <;> cases d4 <;> rfl

/-- The derived intervals appear in strictly increasing fixed phase order. -/
theorem pairwise_deriveIntervals (r : Row) :
    List.Pairwise (fun a b => phaseIdx a.phase < phaseIdx b.phase)
      (deriveIntervals r) := by
  obtain ⟨n, num, m, d0, d1, d2, d3, d4⟩ := r
  cases d0 <;> cases d1 <;> cases d2 <;> cases d3 <;> cases d4 <;>
    simp [deriveIntervals, phaseBounds, phaseIdx, pbIv]

/-- C1: for every record and phase index `i` in 0..3, the Interval Deriver
emits the interval `(phaseNames[i], milestoneDates[i], milestoneDates[i+1])`
iff both of those milestone dates are present (regardless of their relative
order); the number of derived intervals equals the number of adjacent pairs of
present dates; and the intervals come out in strictly increasing fixed phase
order. -/
theorem C1_interval_derivation (r : Row) (i : Fin 4) (s e : Date) :
    ((⟨phaseOrder.getD i.val .programming, s, e⟩ : PhaseInterval) ∈
        deriveIntervals r ↔
      (mdates r).getD i.val none = some s ∧ (mdates r).getD (i.val + 1) none = some e)
    ∧ (deriveIntervals r).length =
        ((List.range 4).filter
          (fun j => ((mdates r).getD j none).isSome &&
            ((mdates r).getD (j + 1) none).isSome)).length
    ∧ List.Pairwise (fun a b => phaseIdx a.phase < phaseIdx b.phase)
        (deriveIntervals r) :=
  ⟨mem_deriveIntervals r i s e, length_deriveIntervals r, pairwise_deriveIntervals r⟩

/-- C2: an interval is active on `d` iff `start ≤ d < finish` (half-open, so
`d = finish` is not active); with the active-on-date filter set, a record is
kept iff at least one of its derived intervals is active; a record with zero
derived intervals is never kept. -/
theorem C2_active_filter (d : Date) (l : List Row) (r : Row) :
    (∀ iv : PhaseInterval, ivActive d iv = true ↔ iv.start ≤ d ∧ d < iv.finish)
    ∧ (r ∈ applyActiveFilter d l ↔
        r ∈ l ∧ ∃ iv ∈ deriveIntervals r, iv.start ≤ d ∧ d < iv.finish)
    ∧ (deriveIntervals r = [] → r ∉ applyActiveFilter d l) := by
  refine ⟨fun iv => by simp [ivActive], ?_, ?_⟩
  · rw [applyActiveFilter, List.mem_filter, activeTodayFlag_iff]
  · intro h hmem
    rw [applyActiveFilter, List.mem_filter, activeTodayFlag_iff, h] at hmem
    simp at hmem

/-- A record with no name, number, manager or dates, for concrete checks. -/
def emptyRow : Row := ⟨none, none, none, none, none, none, none, none⟩

/-- Witness for C2 at a concrete input: the empty record derives no intervals
and is dropped by the active filter on reference date 0. -/
theorem C2_active_filter_witness :
    deriveIntervals emptyRow = [] ∧ emptyRow ∉ applyActiveFilter 0 [emptyRow] :=
  ⟨rfl, (C2_active_filter 0 [emptyRow] emptyRow).2.2 rfl⟩

/-- Python rendering of a possibly missing string cell inside an f-string: a
missing value (pandas NaN) prints as `nan`. -/
def strCell (o : Option Str) : Str := o.getD (cp "nan")

/-- Label Builder, `pname` (`app.py` lines 141-146): when the number is
present and `str(x).replace(".", "", 1).isdigit()` holds it is passed to
`int`, otherwise its literal string form is used.  `Except.error` models the
`ValueError` raised by `int` on a digit string that still contains a dot. -/
def buildPname (r : Row) : Except Unit Str :=
  match r.projectNumber with
  | some v =>
      if isdigitStr (removeDot1 (pyNumStr v)) then
        match pyInt v with
        | some n => .ok (strCell r.projectName ++ cp " (" ++ intCp n ++ cp ")")
        | none => .error ()
      else .ok (strCell r.projectName ++ cp " (" ++ pyNumStr v ++ cp ")")
  | none => .ok (strCell r.projectName)

/-- Label Builder, `full_label` (`app.py` line 147): the manager is appended
unconditionally; a missing manager prints as `nan`. -/
def fullLabel (r : Row) : Except Unit Str :=
  (buildPname r).map (fun p => p ++ cp " — " ++ strCell r.designManager)

/-- Label behaviour stated by cases on the kind of number value, following the
amended claim: a non-negative float renders as its integer part, a negative
float as its literal form; all-digit text renders as its numeric value,
digit-with-dot text raises, any other text renders literally; the manager is
always appended, `nan` when missing. -/
def labelSpec (r : Row) : Except Unit Str :=
  let nm := strCell r.projectName
  let withMgr : Str → Str := fun p => p ++ cp " — " ++ strCell r.designManager
  match r.projectNumber with
  | none => .ok (withMgr nm)
  | some (.flt f) =>
      if f.neg then .ok (withMgr (nm ++ cp " (" ++ pyFloatStr f ++ cp ")"))
      else .ok (withMgr (nm ++ cp " (" ++ natDigits f.ip ++ cp ")"))
  | some (.txt s) =>
      if isdigitStr s then
        .ok (withMgr (nm ++ cp " (" ++ natDigits (digitVal s) ++ cp ")"))
      else if isdigitStr (removeDot1 s) then .error ()
      else .ok (withMgr (nm ++ cp " (" ++ s ++ cp ")"))

/-- Every code point printed by `natDigitsAux` is an ASCII digit. -/
theorem natDigitsAux_mem : ∀ fuel n c, c ∈ natDigitsAux fuel n → 48 ≤ c ∧ c ≤ 57 := by
  intro fuel
  induction fuel with
  | zero =>
    intro n c h
    simp [natDigitsAux] at h
    omega
  | succ f ih =>
    intro n c h
    rw [natDigitsAux] at h
    by_cases h10 : n < 10
    · simp [h10] at h
      omega
    · simp [h10] at h
      rcases h with h | h
      · exact ih _ _ h
      · omega

/-- Every code point printed by `natDigits` is an ASCII digit. -/
theorem natDigits_mem : ∀ n c, c ∈ natDigits n → 48 ≤ c ∧ c ≤ 57 :=
  fun n => natDigitsAux_mem n n

/-- `natDigits` never returns the empty string. -/
theorem natDigits_ne_nil (n : Nat) : natDigits n ≠ [] := by
  rw [natDigits]
  cases n with
  | zero => simp [natDigitsAux]
  | succ m =>
    rw [natDigitsAux]
    split <;> simp

/-- Removing the first dot of a dot-free string is the identity. -/
theorem removeDot1_of_not_mem : ∀ {s : Str}, 46 ∉ s → removeDot1 s = s := by
  intro s
  induction s with
  | nil => intro _; rfl
  | cons a t ih =>
    intro h
    have h1 : ¬(a = 46) := fun e => h (e ▸ List.mem_cons_self a t)
    have h2 : 46 ∉ t := fun m => h (List.mem_cons_of_mem a m)
    rw [removeDot1, if_neg h1, ih h2]

/-- Removing the first dot from `a ++ "." ++ b` with `a` dot-free gives
`a ++ b`. -/
theorem removeDot1_append : ∀ {a : Str}, 46 ∉ a →
    ∀ b : Str, removeDot1 (a ++ 46 :: b) = a ++ b := by
  intro a
  induction a with
  | nil => intro _ b; simp [removeDot1]
  | cons x t ih =>
    intro h b
    have h1 : ¬(x = 46) := fun e => h (e ▸ List.mem_cons_self x t)
    have h2 : 46 ∉ t := fun m => h (List.mem_cons_of_mem x m)
    simp only [List.cons_append, removeDot1, if_neg h1]
    exact congrArg (x :: ·) (ih h2 b)

/-- An all-digit string contains no dot. -/
theorem isdigitStr_no_dot {s : Str} (h : isdigitStr s = true) : 46 ∉ s := by
  intro m
  simp only [isdigitStr, Bool.and_eq_true, List.all_eq_true] at h
  have := h.2 46 m
  simp [isDigitCp] at this

/-- Integer-part digits followed by fractional digits form an all-digit
string. -/
theorem isdigitStr_digits (ip : Nat) (l : List (Fin 10)) :
    isdigitStr (natDigits ip ++ l.map digCp) = true := by
  simp only [isdigitStr, Bool.and_eq_true, List.all_eq_true]
  constructor
  · simp [List.isEmpty_eq_true, natDigits_ne_nil ip]
  · intro c hc
    rcases List.mem_append.mp hc with h | h
    · have := natDigits_mem ip c h
      simp [isDigitCp]; omega
    · rcases List.mem_map.mp h with ⟨d, _, rfl⟩
      have := d.isLt
      simp [isDigitCp, digCp]; omega

/-- Printing a natural number as an integer gives its decimal digits. -/
theorem intCp_natCast (n : Nat) : intCp (n : Int) = natDigits n := by
  simp [intCp]

/-- A string starting with the minus sign is not all digits. -/
theorem isdigitStr_cons45 (l : Str) : isdigitStr (45 :: l) = false := by
  simp [isdigitStr, isDigitCp]

/-- C3 (amended): the Label Builder renders a non-negative float number as its
integer part and a negative float literally; all-digit text as its numeric
value; digit text still containing a dot raises a `ValueError` (no label);
other text literally; and the manager suffix `" — {manager}"` is appended
unconditionally, with a missing manager rendered as `nan`. -/
theorem C3_label_builder_amended (r : Row) : fullLabel r = labelSpec r := by
  rcases r with ⟨nm, num, mgr, d0, d1, d2, d3, d4⟩
  rcases num with _ | v
  · rfl
  rcases v with f | s
  · rcases f with ⟨neg, ip, fd, fmore⟩
    cases neg
    · have hd : 46 ∉ natDigits ip := fun m => by
        have := natDigits_mem ip 46 m; omega
      have hstr : pyFloatStr ⟨false, ip, fd, fmore⟩ =
          natDigits ip ++ 46 :: (fd :: fmore).map digCp := by
        simp [pyFloatStr]
      have hg : isdigitStr (removeDot1 (pyFloatStr ⟨false, ip, fd, fmore⟩)) = true := by
        rw [hstr, removeDot1_append hd]
        exact isdigitStr_digits ip (fd :: fmore)
      simp [fullLabel, buildPname, labelSpec, pyNumStr, pyInt, hg, intCp_natCast,
        Except.map, List.append_assoc]
    · have hstr : pyFloatStr ⟨true, ip, fd, fmore⟩ =
          45 :: (natDigits ip ++ 46 :: (fd :: fmore).map digCp) := by
        simp [pyFloatStr]
      have hg : isdigitStr (removeDot1 (pyFloatStr ⟨true, ip, fd, fmore⟩)) = false := by
        rw [hstr]
        rw [show removeDot1 (45 :: (natDigits ip ++ 46 :: (fd :: fmore).map digCp)) =
          45 :: removeDot1 (natDigits ip ++ 46 :: (fd :: fmore).map digCp) from by
            simp [removeDot1]]
        exact isdigitStr_cons45 _
      simp [fullLabel, buildPname, labelSpec, pyNumStr, hg, Except.map,
        List.append_assoc]
  · by_cases hs : isdigitStr s = true
    · have hnd : 46 ∉ s := isdigitStr_no_dot hs
      have hrm : removeDot1 s = s := removeDot1_of_not_mem hnd
      simp [fullLabel, buildPname, labelSpec, pyNumStr, pyInt, pyIntOfTxt, hrm, hs,
        intCp_natCast, Except.map, List.append_assoc]
    · by_cases hg : isdigitStr (removeDot1 s) = true
      · simp [fullLabel, buildPname, labelSpec, pyNumStr, pyInt, pyIntOfTxt, hg, hs,
          Except.map, List.append_assoc]
      · simp [fullLabel, buildPname, labelSpec, pyNumStr, hg, hs, Except.map,
          List.append_assoc]

/-- The record `name "A", number the text "42.0", manager missing`. -/
def rowDotNum : Row :=
  ⟨some (cp "A"), some (.txt (cp "42.0")), none, none, none, none, none, none⟩

/-- The record `name "B"`, with number and manager missing. -/
def rowPlain : Row :=
  ⟨some (cp "B"), none, none, none, none, none, none, none⟩

/-- C3 as stated fails on the code at two concrete inputs: the text number
`"42.0"` passes the digit guard yet `int("42.0")` raises a `ValueError`
instead of rendering `(42)`, and a record with an absent manager still gets
`" — nan"` appended rather than nothing. -/
theorem C3_counterexample :
    fullLabel rowDotNum = .error () ∧
    fullLabel rowPlain = .ok (cp "B — nan") ∧ cp "B — nan" ≠ cp "B" :=
  ⟨rfl, rfl, by decide⟩

/-- ASCII whitespace test for Python `str.strip` (space and the control
whitespace characters). -/
def isSpaceCp (c : Nat) : Bool := c == 32 || (9 ≤ c && c ≤ 13)

/-- Python `str.strip`: drop leading and trailing whitespace. -/
def stripCp (s : Str) : Str :=
  ((s.dropWhile isSpaceCp).reverse.dropWhile isSpaceCp).reverse

/-- Python `str.lower` on one code point, restricted to ASCII letters (the
pandas `case=False` comparison lower-cases both sides). -/
def lowerCp (c : Nat) : Nat := if 65 ≤ c ∧ c ≤ 90 then c + 32 else c

/-- Python `str.lower` on a string. -/
def lowerStr (s : Str) : Str := s.map lowerCp

/-- Prefix test on code point strings. -/
def isPrefixCp : Str → Str → Bool
  | [], _ => true
  | _ :: _, [] => false
  | a :: as, b :: bs => a == b && isPrefixCp as bs

/-- Contiguous substring test, the semantics of pandas `str.contains` for
patterns without regular-expression metacharacters (the patterns modelled
here; `str.contains` treats the pattern as a regex in general). -/
def containsCp (pat : Str) : Str → Bool
  | [] => isPrefixCp pat []
  | c :: t => isPrefixCp pat (c :: t) || containsCp pat t

/-- The three sidebar search strings (`app.py` lines 50-52), as entered. -/
structure FilterCriteria where
  nameS : Str
  numberS : Str
  managerS : Str
deriving DecidableEq, Repr

/-- Truthiness of `search.strip()` (`app.py` lines 82, 86, 91): a filter is
applied only when the stripped search string is nonempty. -/
def filterSet (s : Str) : Bool := !(stripCp s).isEmpty

/-- Project Name filter row test (`app.py` lines 82-84): case-insensitive
substring match; a missing name never matches (`na=False`). -/
def matchName (pat : Str) (r : Row) : Bool :=
  match r.projectName with
  | some v => containsCp (lowerStr (stripCp pat)) (lowerStr v)
  | none => false

/-- The `Project #` column under `astype(str)` (`app.py` line 88): a missing
number becomes the literal string `nan`. -/
def numberAsStr (r : Row) : Str :=
  match r.projectNumber with
  | some v => pyNumStr v
  | none => cp "nan"

/-- Project # filter row test (`app.py` lines 86-89): substring match on the
`astype(str)` column; `case=False` is NOT passed, so the match is
case-sensitive, and after `astype(str)` no value is missing (`na=False` has
nothing to do). -/
def matchNumber (pat : Str) (r : Row) : Bool :=
  containsCp (stripCp pat) (numberAsStr r)

/-- Design Manager filter row test (`app.py` lines 91-93): case-insensitive
substring match; a missing manager never matches (`na=False`). -/
def matchManager (pat : Str) (r : Row) : Bool :=
  match r.designManager with
  | some v => containsCp (lowerStr (stripCp pat)) (lowerStr v)
  | none => false

/-- Sequential application of the three sidebar text filters (`app.py` lines
80-93). -/
def applyTextFilters (fc : FilterCriteria) (l : List Row) : List Row :=
  let l1 := if filterSet fc.nameS then l.filter (matchName fc.nameS) else l
  let l2 := if filterSet fc.numberS then l1.filter (matchNumber fc.numberS) else l1
  if filterSet fc.managerS then l2.filter (matchManager fc.managerS) else l2

/-- C4 (amended): the three text filters compose by conjunction — a record
survives iff it passes every filter that is set — and an absent or
whitespace-only filter string matches everything; a record with an absent
name or manager never matches a non-empty filter on that field; an absent
number, however, is matched as the literal string `nan` (the column is cast
with `astype(str)` before matching), so it can match a non-empty number
filter. -/
theorem C4_filter_conjunction (fc : FilterCriteria) (l : List Row) (r : Row) :
    (r ∈ applyTextFilters fc l ↔
      r ∈ l ∧ (filterSet fc.nameS = true → matchName fc.nameS r = true)
        ∧ (filterSet fc.numberS = true → matchNumber fc.numberS r = true)
        ∧ (filterSet fc.managerS = true → matchManager fc.managerS r = true))
    ∧ (r.projectName = none → filterSet fc.nameS = true →
        r ∉ applyTextFilters fc l)
    ∧ (r.designManager = none → filterSet fc.managerS = true →
        r ∉ applyTextFilters fc l)
    ∧ (r.projectNumber = none → matchNumber fc.numberS r =
        containsCp (stripCp fc.numberS) (cp "nan")) := by
  have hmain : r ∈ applyTextFilters fc l ↔
      r ∈ l ∧ (filterSet fc.nameS = true → matchName fc.nameS r = true)
        ∧ (filterSet fc.numberS = true → matchNumber fc.numberS r = true)
        ∧ (filterSet fc.managerS = true → matchManager fc.managerS r = true) := by
    rw [applyTextFilters]
    cases hn : filterSet fc.nameS <;> cases hu : filterSet fc.numberS <;>
      cases hm : filterSet fc.managerS <;>
        simp [List.mem_filter, and_assoc] <;> tauto
  refine ⟨hmain, ?_, ?_, ?_⟩
  · intro hnone hset hmem
    have := ((hmain.mp hmem).2.1) hset
    rw [matchName, hnone] at this
    exact Bool.false_ne_true this
  · intro hnone hset hmem
    have := ((hmain.mp hmem).2.2.2) hset
    rw [matchManager, hnone] at this
    exact Bool.false_ne_true this
  · intro hnone
    rw [matchNumber, numberAsStr, hnone]

/-- The record `name "A"` with number and manager missing. -/
def rowNoNum : Row :=
  ⟨some (cp "A"), none, none, none, none, none, none, none⟩

/-- Number filter `na` with the other filters empty. -/
def fcNa : FilterCriteria := ⟨cp "", cp "na", cp ""⟩

/-- C4 as stated fails on the code: a record with an absent number survives
the non-empty number filter `"na"`, because `astype(str)` turns the missing
value into the literal string `nan` before the substring match. -/
theorem C4_counterexample :
    rowNoNum.projectNumber = none ∧ filterSet fcNa.numberS = true ∧
      applyTextFilters fcNa [rowNoNum] = [rowNoNum] :=
  ⟨rfl, rfl, rfl⟩

/-- Name filter `tower`, manager filter `smith`, number filter empty. -/
def fcTowerSmith : FilterCriteria := ⟨cp "tower", cp "", cp "smith"⟩

/-- The record `name "Water Tower"` with no manager. -/
def rowTowerNoMgr : Row :=
  ⟨some (cp "Water Tower"), none, none, none, none, none, none, none⟩

/-- Witness for C4 at concrete inputs: a record matching the name filter but
with an absent manager is excluded by the non-empty manager filter, and the
same record passes when only the name filter is set. -/
theorem C4_filter_conjunction_witness :
    rowTowerNoMgr ∉ applyTextFilters fcTowerSmith [rowTowerNoMgr] ∧
      rowTowerNoMgr ∈ applyTextFilters ⟨cp "tower", cp "", cp ""⟩ [rowTowerNoMgr] :=
  ⟨(C4_filter_conjunction fcTowerSmith [rowTowerNoMgr] rowTowerNoMgr).2.2.1 rfl rfl,
    (C4_filter_conjunction ⟨cp "tower", cp "", cp ""⟩ [rowTowerNoMgr]
        rowTowerNoMgr).1.mpr
      ⟨List.mem_singleton.mpr rfl, fun _ => rfl, fun h => by exact absurd h (by decide),
        fun h => by exact absurd h (by decide)⟩⟩

/-- C7 (amended): the name and manager filters are case-insensitive — two
search strings (or two field values) equal up to letter case behave
identically — while the number filter (shown case-sensitive by the
counterexample) is not.  Matching also ignores leading and trailing
whitespace of the search string. -/
theorem C7_case_insensitivity (p1 p2 : Str) (r : Row) (v1 v2 : Str)
    (hp : lowerStr (stripCp p1) = lowerStr (stripCp p2)) :
    (matchName p1 r = matchName p2 r ∧ matchManager p1 r = matchManager p2 r)
    ∧ (lowerStr v1 = lowerStr v2 →
        matchName p1 { r with projectName := some v1 } =
          matchName p1 { r with projectName := some v2 } ∧
        matchManager p1 { r with designManager := some v1 } =
          matchManager p1 { r with designManager := some v2 }) := by
  constructor
  · constructor
    · rw [matchName, matchName, hp]
    · rw [matchManager, matchManager, hp]
  · intro hv
    constructor
    · rw [matchName, matchName]
      simp only [hv]
    · rw [matchManager, matchManager]
      simp only [hv]

/-- The record `name "Tower"`, manager `SMITH`. -/
def rowTower : Row :=
  ⟨some (cp "Tower"), none, some (cp "SMITH"), none, none, none, none, none⟩

/-- Witness for C7 at concrete inputs: search strings `TOW` and `tow` (and
values `X` / `x`) behave identically for the name and manager filters. -/
theorem C7_case_insensitivity_witness :
    (matchName (cp "TOW") rowTower = matchName (cp "tow") rowTower ∧
      matchManager (cp "TOW") rowTower = matchManager (cp "tow") rowTower)
    ∧ (matchName (cp "TOW") { rowTower with projectName := some (cp "X") } =
        matchName (cp "TOW") { rowTower with projectName := some (cp "x") } ∧
      matchManager (cp "TOW") { rowTower with designManager := some (cp "X") } =
        matchManager (cp "TOW") { rowTower with designManager := some (cp "x") }) :=
  ⟨(C7_case_insensitivity (cp "TOW") (cp "tow") rowTower (cp "X") (cp "x")
      (by decide)).1,
    (C7_case_insensitivity (cp "TOW") (cp "tow") rowTower (cp "X") (cp "x")
      (by decide)).2 (by decide)⟩

/-- The record `name "A"`, number the text `42A`. -/
def row42A : Row :=
  ⟨some (cp "A"), some (.txt (cp "42A")), none, none, none, none, none, none⟩

/-- Number filter `a`, other filters empty. -/
def fcLowerA : FilterCriteria := ⟨cp "", cp "a", cp ""⟩

/-- Number filter `A`, other filters empty. -/
def fcUpperA : FilterCriteria := ⟨cp "", cp "A", cp ""⟩

/-- C7 as stated fails on the code: the number filter is case-sensitive
(`case=False` is not passed at `app.py` lines 86-89), so changing the case of
the filter string changes whether the record with number `42A` matches. -/
theorem C7_counterexample :
    lowerStr fcUpperA.numberS = lowerStr fcLowerA.numberS ∧
      applyTextFilters fcLowerA [row42A] = [] ∧
      applyTextFilters fcUpperA [row42A] = [row42A] :=
  ⟨by decide, rfl, rfl⟩

/-- Strict lexicographic order on code point strings: Python string `<`,
which numpy uses when comparing the object-dtype column values. -/
def cpLt : Str → Str → Bool
  | [], [] => false
  | [], _ :: _ => true
  | _ :: _, [] => false
  | a :: as, b :: bs => decide (a < b) || (decide (a = b) && cpLt as bs)

/-- Non-strict lexicographic order on code point strings. -/
def cpLe : Str → Str → Bool
  | [], _ => true
  | _ :: _, [] => false
  | a :: as, b :: bs => decide (a < b) || (decide (a = b) && cpLe as bs)

/-- Lexicographic order is reflexive. -/
theorem cpLe_refl (x : Str) : cpLe x x = true := by
  induction x with
  | nil => rfl
  | cons a as ih => simp [cpLe, ih]

/-- Lexicographic order is total. -/
theorem cpLe_total (x y : Str) : cpLe x y = true ∨ cpLe y x = true := by
  induction x generalizing y with
  | nil => exact Or.inl rfl
  | cons a as ih =>
    cases y with
    | nil => exact Or.inr rfl
    | cons b bs =>
      rcases Nat.lt_trichotomy a b with h | h | h
      · left; simp [cpLe, h]
      · subst h
        rcases ih bs with hh | hh
        · left; simp [cpLe, hh]
        · right; simp [cpLe, hh]
      · right; simp [cpLe, h]

/-- Lexicographic order is transitive. -/
theorem cpLe_trans : ∀ {x y z : Str},
    cpLe x y = true → cpLe y z = true → cpLe x z = true := by
  intro x
  induction x with
  | nil => intro y z _ _; rfl
  | cons a as ih =>
    intro y z hxy hyz
    cases y with
    | nil => simp [cpLe] at hxy
    | cons b bs =>
      cases z with
      | nil => simp [cpLe] at hyz
      | cons c cs =>
        simp only [cpLe, Bool.or_eq_true, Bool.and_eq_true, decide_eq_true_eq] at *
        rcases hxy with h1 | ⟨h1, h1t⟩ <;> rcases hyz with h2 | ⟨h2, h2t⟩
        · exact Or.inl (by omega)
        · exact Or.inl (by omega)
        · exact Or.inl (by omega)
        · exact Or.inr ⟨by omega, ih h1t h2t⟩

/-- Lexicographic order is antisymmetric. -/
theorem cpLe_antisymm : ∀ {x y : Str},
    cpLe x y = true → cpLe y x = true → x = y := by
  intro x
  induction x with
  | nil =>
    intro y _ hyx
    cases y with
    | nil => rfl
    | cons b bs => simp [cpLe] at hyx
  | cons a as ih =>
    intro y hxy hyx
    cases y with
    | nil => simp [cpLe] at hxy
    | cons b bs =>
      simp only [cpLe, Bool.or_eq_true, Bool.and_eq_true, decide_eq_true_eq] at hxy hyx
      rcases hxy with h1 | ⟨h1, h1t⟩ <;> rcases hyx with h2 | ⟨h2, h2t⟩ <;>
        first
          | omega
          | (exact absurd h1 (by omega))
          | (exact absurd h2 (by omega))
          | (exact congrArg₂ (· :: ·) h1 (ih h1t h2t))

/-- Strict order on an optional sort key with missing values greatest:
`sort_values` defaults to `na_position="last"`. -/
def optLt (a b : Option Str) : Bool :=
  match a, b with
  | some x, some y => cpLt x y
  | some _, none => true
  | none, _ => false

/-- Non-strict order on an optional sort key, missing values last. -/
def optLe (a b : Option Str) : Bool :=
  match a, b with
  | none, none => true
  | none, some _ => false
  | some _, none => true
  | some x, some y => cpLe x y

/-- The strict optional order is the non-strict one minus ties. -/
theorem optLt_iff (a b : Option Str) :
    optLt a b = true ↔ optLe a b = true ∧ ¬optLe b a = true := by
  cases a <;> cases b <;> simp [optLt, optLe]
  case some.some x y =>
    induction x generalizing y with
    | nil => cases y <;> simp [cpLt, cpLe]
    | cons a as ih =>
      cases y with
      | nil => simp [cpLt, cpLe]
      | cons b bs =>
        by_cases hab : a = b
        · subst hab
          simp [cpLt, cpLe, ih bs]
        · rcases Nat.lt_or_ge a b with h | h
          · simp [cpLt, cpLe, h, hab]
            omega
          · have h2 : ¬(a < b) := by omega
            have h3 : b < a ∨ b = a := by omega
            rcases h3 with h3 | h3
            · simp [cpLt, cpLe, h2, hab, h3]
            · omega

/-- Reflexivity of the optional order. -/
theorem optLe_refl (a : Option Str) : optLe a a = true := by
  cases a <;> simp [optLe, cpLe_refl]

/-- Totality of the optional order. -/
theorem optLe_total (a b : Option Str) : optLe a b = true ∨ optLe b a = true := by
  cases a <;> cases b <;> simp [optLe]
  exact cpLe_total _ _

/-- Transitivity of the optional order. -/
theorem optLe_trans {a b c : Option Str} (h1 : optLe a b = true)
    (h2 : optLe b c = true) : optLe a c = true := by
  cases a <;> cases b <;> cases c <;>
    simp only [optLe] at * <;>
      first
        | rfl
        | exact cpLe_trans h1 h2
        | exact h1
        | exact h2
        | exact absurd h2 (by simp)

/-- Antisymmetry of the optional order. -/
theorem optLe_antisymm {a b : Option Str} (h1 : optLe a b = true)
    (h2 : optLe b a = true) : a = b := by
  cases a <;> cases b <;> simp [optLe] at *
  exact cpLe_antisymm h1 h2

/-- Sort key of the `Design Manager` branch (`app.py` lines 114-118): the
pair (manager, name). -/
def mtnKey (r : Row) : Option Str × Option Str :=
  (r.designManager, r.projectName)

/-- Lexicographic comparison of two rows by (manager, name), missing values
last: the order realised by `sort_values(by=["Design Manager Name",
"Project Name"], ascending=[True, True])`. -/
def mtnLe (a b : Row) : Bool :=
  optLt a.designManager b.designManager ||
    (decide (a.designManager = b.designManager) && optLe a.projectName b.projectName)

/-- Equal sort keys compare less-or-equal. -/
theorem mtnLe_of_key_eq {a b : Row} (h : mtnKey a = mtnKey b) :
    mtnLe a b = true := by
  rw [mtnKey, mtnKey, Prod.mk.injEq] at h
  simp [mtnLe, h.1, h.2, optLe_refl]

/-- The row comparison is total. -/
theorem mtnLe_total (a b : Row) : mtnLe a b = true ∨ mtnLe b a = true := by
  rcases optLe_total a.designManager b.designManager with h | h <;>
    by_cases he : a.designManager = b.designManager
  · rcases optLe_total a.projectName b.projectName with hn | hn
    · left; simp [mtnLe, he, hn]
    · right; simp [mtnLe, he.symm, hn]
  · left
    have := (optLt_iff a.designManager b.designManager).mpr
      ⟨h, fun hba => he (optLe_antisymm h hba)⟩
    simp [mtnLe, this]
  · rcases optLe_total a.projectName b.projectName with hn | hn
    · left; simp [mtnLe, he, hn]
    · right; simp [mtnLe, he.symm, hn]
  · right
    have := (optLt_iff b.designManager a.designManager).mpr
      ⟨h, fun hab => he (optLe_antisymm hab h)⟩
    simp [mtnLe, this]

/-- The row comparison is transitive. -/
theorem mtnLe_trans {a b c : Row} (h1 : mtnLe a b = true)
    (h2 : mtnLe b c = true) : mtnLe a c = true := by
  simp only [mtnLe, Bool.or_eq_true, Bool.and_eq_true, decide_eq_true_eq,
    optLt_iff] at *
  rcases h1 with ⟨h1a, h1b⟩ | ⟨h1a, h1b⟩ <;> rcases h2 with ⟨h2a, h2b⟩ | ⟨h2a, h2b⟩
  · exact Or.inl ⟨optLe_trans h1a h2a, fun h => h1b (optLe_trans h2a h)⟩
  · exact Or.inl ⟨h2a ▸ h1a, h2a ▸ h1b⟩
  · exact Or.inl ⟨h1a ▸ h2a, h1a ▸ h2b⟩
  · exact Or.inr ⟨h1a.trans h2a, optLe_trans h1b h2b⟩

/-- Ties of the row comparison are exactly equal sort keys. -/
theorem mtnLe_tie {a b : Row} (h1 : mtnLe a b = true) (h2 : mtnLe b a = true) :
    mtnKey a = mtnKey b := by
  simp only [mtnLe, Bool.or_eq_true, Bool.and_eq_true, decide_eq_true_eq,
    optLt_iff] at h1 h2
  rw [mtnKey, mtnKey, Prod.mk.injEq]
  rcases h1 with ⟨h1a, h1b⟩ | ⟨h1a, h1b⟩ <;> rcases h2 with ⟨h2a, h2b⟩ | ⟨h2a, h2b⟩
  · exact absurd h2a h1b
  · exact absurd (h2a ▸ h1a) h1b
  · exact absurd (h1a ▸ h2a) h2b
  · exact ⟨h1a, optLe_antisymm h1b h2b⟩

/-- Stable insertion of a row into an already sorted list: the row goes in
front of the first element it compares less-or-equal to, hence in front of
every later tie — the placement a stable sort gives an element coming after
the list elements in the input. -/
def insertRow (x : Row) : List Row → List Row
  | [] => [x]
  | y :: t => if mtnLe x y then x :: y :: t else y :: insertRow x t

/-- The `Design Manager` sort branch (`app.py` lines 114-118): pandas
`sort_values` on two columns runs `np.lexsort` on the column codes, a stable
lexicographic sort with missing values coded last.  A stable sort by a total
preorder has a unique result, realised here by insertion sort with the
stable insertion above. -/
def sortManagerThenName : List Row → List Row
  | [] => []
  | x :: t => insertRow x (sortManagerThenName t)

/-- Inserting permutes the element onto the list. -/
theorem insertRow_perm (x : Row) (l : List Row) :
    List.Perm (insertRow x l) (x :: l) := by
  induction l with
  | nil => exact List.Perm.refl _
  | cons y t ih =>
    rw [insertRow]
    by_cases h : mtnLe x y = true
    · rw [if_pos h]
    · rw [if_neg h]
      exact (ih.cons y).trans (List.Perm.swap x y t)

/-- The sorted output is a permutation of the input. -/
theorem sortManagerThenName_perm (l : List Row) :
    List.Perm (sortManagerThenName l) l := by
  induction l with
  | nil => exact List.Perm.refl _
  | cons x t ih =>
    exact (insertRow_perm x (sortManagerThenName t)).trans (ih.cons x)

/-- Insertion preserves sortedness. -/
theorem insertRow_sorted {l : List Row} (x : Row)
    (hl : List.Pairwise (fun a b => mtnLe a b = true) l) :
    List.Pairwise (fun a b => mtnLe a b = true) (insertRow x l) := by
  induction l with
  | nil => simp [insertRow]
  | cons y t ih =>
    rcases List.pairwise_cons.mp hl with ⟨hy, ht⟩
    rw [insertRow]
    by_cases h : mtnLe x y = true
    · rw [if_pos h]
      refine List.pairwise_cons.mpr ⟨?_, hl⟩
      intro z hz
      rcases List.mem_cons.mp hz with rfl | hz
      · exact h
      · exact mtnLe_trans h (hy z hz)
    · rw [if_neg h]
      have hyx : mtnLe y x = true := (mtnLe_total x y).resolve_left h
      refine List.pairwise_cons.mpr ⟨?_, ih ht⟩
      intro z hz
      have := (insertRow_perm x t).mem_iff.mp hz
      rcases List.mem_cons.mp this with rfl | hz2
      · exact hyx
      · exact hy z hz2

/-- The sorted output is pairwise ordered. -/
theorem sortManagerThenName_sorted (l : List Row) :
    List.Pairwise (fun a b => mtnLe a b = true) (sortManagerThenName l) := by
  induction l with
  | nil => simp [sortManagerThenName]
  | cons x t ih => exact insertRow_sorted x ih

/-- Inserting a row whose key is `k` prepends it to the `k`-tied sublist. -/
theorem filter_insertRow_key_eq {x : Row} {k : Option Str × Option Str}
    (hx : mtnKey x = k) (l : List Row) :
    (insertRow x l).filter (fun r => decide (mtnKey r = k)) =
      x :: l.filter (fun r => decide (mtnKey r = k)) := by
  induction l with
  | nil => simp [insertRow, hx]
  | cons y t ih =>
    rw [insertRow]
    by_cases h : mtnLe x y = true
    · rw [if_pos h]
      simp [hx]
    · rw [if_neg h]
      have hyx : mtnLe y x = true := (mtnLe_total x y).resolve_left h
      have hyk : ¬(mtnKey y = k) := by
        intro hk
        exact h (mtnLe_of_key_eq (by rw [hx, hk]))
      rw [List.filter_cons, if_neg (by simp [hyk]), ih, List.filter_cons,
        if_neg (by simp [hyk])]

/-- Inserting a row with a different key leaves the `k`-tied sublist alone. -/
theorem filter_insertRow_key_ne {x : Row} {k : Option Str × Option Str}
    (hx : ¬(mtnKey x = k)) (l : List Row) :
    (insertRow x l).filter (fun r => decide (mtnKey r = k)) =
      l.filter (fun r => decide (mtnKey r = k)) := by
  induction l with
  | nil => simp [insertRow, hx]
  | cons y t ih =>
    rw [insertRow]
    by_cases h : mtnLe x y = true
    · rw [if_pos h]
      rw [List.filter_cons, if_neg (by simp [hx])]
    · rw [if_neg h]
      rw [List.filter_cons, ih, List.filter_cons]

/-- C5 (amended): the two-column `ManagerThenName` sort is stable — for every
sort key value, the sublist of records carrying that key is unchanged by the
sort, so ties retain their original relative input order.  (The single-column
sort keys run numpy's default quicksort instead, which the counterexample
shows is not stable.) -/
theorem C5_manager_sort_stability (l : List Row) (k : Option Str × Option Str) :
    (sortManagerThenName l).filter (fun r => decide (mtnKey r = k)) =
      l.filter (fun r => decide (mtnKey r = k)) := by
  induction l with
  | nil => rfl
  | cons x t ih =>
    rw [sortManagerThenName]
    by_cases hx : mtnKey x = k
    · rw [filter_insertRow_key_eq hx, ih, List.filter_cons, if_pos (by simp [hx])]
    · rw [filter_insertRow_key_ne hx, ih, List.filter_cons, if_neg (by simp [hx])]

/-- C6 (amended): the `ManagerThenName` sort is a permutation of its input,
ascending by the pair (manager, name), and records with a missing manager
sort last (after all present managers), not first. -/
theorem C6_manager_sort_order (l : List Row) :
    List.Perm (sortManagerThenName l) l
    ∧ List.Pairwise (fun a b => mtnLe a b = true) (sortManagerThenName l)
    ∧ List.Pairwise (fun a b => a.designManager = none → b.designManager = none)
        (sortManagerThenName l) := by
  refine ⟨sortManagerThenName_perm l, sortManagerThenName_sorted l, ?_⟩
  refine (sortManagerThenName_sorted l).imp ?_
  intro a b hab hnone
  simp only [mtnLe, Bool.or_eq_true, Bool.and_eq_true, decide_eq_true_eq] at hab
  rcases hab with h | h
  · rw [hnone] at h
    simp [optLt] at h
  · rw [← h.1, hnone]

/-- The record `name "P1"`, manager `A`. -/
def rowMgrA : Row :=
  ⟨some (cp "P1"), none, some (cp "A"), none, none, none, none, none⟩

/-- The record `name "P2"`, manager missing. -/
def rowMgrNone : Row :=
  ⟨some (cp "P2"), none, none, none, none, none, none, none⟩

/-- C6 as stated fails on the code: `sort_values` defaults to
`na_position="last"`, so the record with a missing manager sorts AFTER the
record with manager `A`, not before all non-null values. -/
theorem C6_counterexample :
    rowMgrNone.designManager = none ∧ rowMgrA.designManager = some (cp "A") ∧
      sortManagerThenName [rowMgrNone, rowMgrA] = [rowMgrA, rowMgrNone] :=
  ⟨rfl, rfl, by decide⟩

/-- pandas `Series.nunique`: number of distinct values, missing values
dropped. -/
def nuniqueOpt (xs : List (Option Str)) : Nat := (xs.filterMap id).dedup.length

/-- The `Total Projects` metric (`app.py` line 202):
`df_filtered["Project Name"].nunique()` over the filtered set. -/
def totalProjects (l : List Row) : Nat := nuniqueOpt (l.map Row.projectName)

/-- The `Active Today` metric (`app.py` line 182): `nunique` of the names of
the rows flagged active. -/
def activeProjects (d : Date) (l : List Row) : Nat :=
  nuniqueOpt ((l.filter (activeTodayFlag d)).map Row.projectName)

/-- One step of the phase-count loop (`app.py` lines 190-198): the name of a
phase entry passing the condition, for the first-match-wins `break`. -/
def pbFirst (d : Date) (pse : Phase × Option Date × Option Date) : Option Phase :=
  if pbCheck d pse then some pse.1 else none

/-- The phase a row is counted under (`app.py` lines 189-198): the first
phase in fixed order passing the condition, if any (the loop breaks after the
first hit). -/
def firstActivePhase (d : Date) (r : Row) : Option Phase :=
  (phaseBounds r).findSome? (pbFirst d)

/-- The `phase_counts` buckets (`app.py` lines 183-198): every row of the
filtered set flagged active increments the bucket of its first matching
phase. -/
def phaseCounts (d : Date) (l : List Row) (p : Phase) : Nat :=
  ((l.filter (activeTodayFlag d)).filterMap (firstActivePhase d)).count p

/-- A row has some active phase in the list of derived intervals of phase
`p`. -/
def phaseActive (d : Date) (r : Row) (p : Phase) : Bool :=
  (deriveIntervals r).any (fun iv => decide (iv.phase = p) && ivActive d iv)

/-- The row loop finds a phase exactly when some phase passes the condition. -/
theorem findSome?_pbFirst_isSome (d : Date) (l : List (Phase × Option Date × Option Date)) :
    (l.findSome? (pbFirst d)).isSome = l.any (pbCheck d) := by
  induction l with
  | nil => rfl
  | cons x t ih =>
    rw [List.findSome?_cons, List.any_cons]
    cases hx : pbCheck d x
    · rw [show pbFirst d x = none from by simp [pbFirst, hx]]
      simp [ih]
    · rw [show pbFirst d x = some x.1 from by simp [pbFirst, hx]]
      simp

/-- Over a list of phase entries with strictly increasing phase indices, the
first found phase passes the condition and is minimal in phase order among
all entries passing it. -/
theorem findSome?_pbFirst_min {d : Date} {p : Phase}
    {l : List (Phase × Option Date × Option Date)}
    (hord : List.Pairwise (fun a b => phaseIdx a.1 < phaseIdx b.1) l)
    (hp : l.findSome? (pbFirst d) = some p) :
    (∃ pse ∈ l, pse.1 = p ∧ pbCheck d pse = true)
    ∧ ∀ pse ∈ l, pbCheck d pse = true → phaseIdx p ≤ phaseIdx pse.1 := by
  induction l with
  | nil => simp at hp
  | cons x t ih =>
    rw [List.findSome?_cons] at hp
    rcases List.pairwise_cons.mp hord with ⟨hx, ht⟩
    cases hc : pbCheck d x
    · rw [show pbFirst d x = none from by simp [pbFirst, hc]] at hp
      obtain ⟨⟨pse, hmem, heq, hchk⟩, hmin⟩ := ih ht hp
      refine ⟨⟨pse, List.mem_cons_of_mem x hmem, heq, hchk⟩, ?_⟩
      intro q hq hchq
      rcases List.mem_cons.mp hq with rfl | hq2
      · rw [hc] at hchq
        exact absurd hchq (by simp)
      · exact hmin q hq2 hchq
    · rw [show pbFirst d x = some x.1 from by simp [pbFirst, hc]] at hp
      have hxp : x.1 = p := by injection hp
      subst hxp
      refine ⟨⟨x, List.mem_cons_self x t, rfl, hc⟩, ?_⟩
      intro q hq hchq
      rcases List.mem_cons.mp hq with rfl | hq2
      · exact Nat.le_refl _
      · exact Nat.le_of_lt (hx q hq2)

/-- The phases of the `phases` list are in strictly increasing fixed order. -/
theorem phaseBounds_ord (r : Row) :
    List.Pairwise (fun a b => phaseIdx a.1 < phaseIdx b.1) (phaseBounds r) := by
  simp [phaseBounds, phaseIdx]

/-- A phase is active for a row exactly when its entry of the `phases` list
passes the loop condition. -/
theorem phaseActive_iff (d : Date) (r : Row) (p : Phase) :
    phaseActive d r p = true ↔
      ∃ pse ∈ phaseBounds r, pse.1 = p ∧ pbCheck d pse = true := by
  rw [phaseActive, List.any_eq_true]
  constructor
  · rintro ⟨iv, hiv, hcond⟩
    rcases List.mem_filterMap.mp hiv with ⟨pse, hmem, hsome⟩
    rcases pse with ⟨q, s | s, e | e⟩ <;> simp [pbIv] at hsome
    obtain ⟨rfl, rfl, rfl⟩ := hsome
    simp only [Bool.and_eq_true, decide_eq_true_eq] at hcond
    refine ⟨(q, some s, e), hmem, ?_⟩
    rcases hcond with ⟨rfl, hact⟩
    simp only [ivActive, Bool.and_eq_true, decide_eq_true_eq] at hact
    exact ⟨rfl, by simp [pbCheck, hact.1, hact.2]⟩
  · rintro ⟨⟨q, s, e⟩, hmem, hq, hchk⟩
    cases s with
    | none => simp [pbCheck] at hchk
    | some s =>
      cases e with
      | none => simp [pbCheck] at hchk
      | some e =>
        simp only [pbCheck, Bool.and_eq_true, decide_eq_true_eq] at hchk
        refine ⟨⟨q, s, e⟩, List.mem_filterMap.mpr ⟨(q, some s, some e), hmem, rfl⟩, ?_⟩
        have hqp : q = p := hq
        simp [hqp, ivActive, hchk.1, hchk.2]

/-- C9: a record with at least one interval containing the reference date is
counted in exactly one per-phase bucket — that of the first phase in fixed
order 0..3 whose interval contains the date — and adding the record to a
filtered set increments that bucket alone. -/
theorem C9_phase_exclusivity (d : Date) (l : List Row) (r : Row)
    (h : activeTodayFlag d r = true) :
    ∃ p, firstActivePhase d r = some p
      ∧ phaseActive d r p = true
      ∧ (∀ q, phaseIdx q < phaseIdx p → phaseActive d r q = false)
      ∧ (∀ q, phaseCounts d (r :: l) q =
          phaseCounts d l q + if q = p then 1 else 0) := by
  have hsome : (firstActivePhase d r).isSome = true := by
    rw [firstActivePhase, findSome?_pbFirst_isSome]
    exact h
  obtain ⟨p, hp⟩ := Option.isSome_iff_exists.mp hsome
  obtain ⟨⟨pse, hmem, hq, hchk⟩, hmin⟩ :=
    findSome?_pbFirst_min (phaseBounds_ord r) hp
  refine ⟨p, hp, ?_, ?_, ?_⟩
  · exact (phaseActive_iff d r p).mpr ⟨pse, hmem, hq, hchk⟩
  · intro q hlt
    cases hact : phaseActive d r q
    · rfl
    · obtain ⟨pse2, hmem2, hq2, hchk2⟩ := (phaseActive_iff d r q).mp hact
      have := hmin pse2 hmem2 hchk2
      rw [hq2] at this
      omega
  · intro q
    rw [phaseCounts, phaseCounts, List.filter_cons, if_pos h,
      List.filterMap_cons, hp, List.count_cons]
    by_cases hqp : q = p
    · simp [hqp]
    · simp [hqp, Ne.symm hqp]

/-- The record with milestone dates 0, 10, 5, 10 (out of order): its
Programming interval `[0, 10)` and Design Development interval `[5, 10)` both
contain day 7. -/
def rowOverlap : Row :=
  ⟨some (cp "O"), none, none, some 0, some 10, some 5, some 10, none⟩

/-- Witness for C9 at a concrete input: two phases of `rowOverlap` contain
day 7, and the record is counted once, under the first of them. -/
theorem C9_phase_exclusivity_witness :
    phaseActive 7 rowOverlap .programming = true ∧
      phaseActive 7 rowOverlap .designDevelopment = true ∧
      (∃ p, firstActivePhase 7 rowOverlap = some p
        ∧ phaseActive 7 rowOverlap p = true
        ∧ (∀ q, phaseIdx q < phaseIdx p → phaseActive 7 rowOverlap q = false)
        ∧ (∀ q, phaseCounts 7 (rowOverlap :: []) q =
            phaseCounts 7 [] q + if q = p then 1 else 0)) :=
  ⟨by decide, by decide, C9_phase_exclusivity 7 [] rowOverlap (by decide)⟩

/-- Number of distinct full labels in a set of records (the quantity C8 says
the metrics count). -/
def distinctLabels (l : List Row) : Nat :=
  (l.filterMap (fun r => (fullLabel r).toOption)).dedup.length

/-- The record `name "X", number "1"`. -/
def rowX1 : Row :=
  ⟨some (cp "X"), some (.txt (cp "1")), none, none, none, none, none, none⟩

/-- The record `name "X", number "2"`. -/
def rowX2 : Row :=
  ⟨some (cp "X"), some (.txt (cp "2")), none, none, none, none, none, none⟩

/-- C8 as stated fails on the code: the metrics count distinct project NAMES
(`df_filtered["Project Name"].nunique()`), not distinct labels — two records
sharing the name `X` but differing in number carry two distinct labels yet
count as one project. -/
theorem C8_counterexample :
    distinctLabels [rowX1, rowX2] = 2 ∧ totalProjects [rowX1, rowX2] = 1 :=
  ⟨by decide, by decide⟩

/-- C8 (amended): `totalProjects` is the number of distinct non-missing
project names of the filtered set, `activeToday` the number of distinct
non-missing names among the rows flagged active; the active count never
exceeds the total. -/
theorem C8_metrics_names (d : Date) (l : List Row) :
    totalProjects l = (l.filterMap Row.projectName).toFinset.card
    ∧ activeProjects d l =
        ((l.filter (activeTodayFlag d)).filterMap Row.projectName).toFinset.card
    ∧ activeProjects d l ≤ totalProjects l := by
  have h1 : totalProjects l = (l.filterMap Row.projectName).toFinset.card := by
    rw [totalProjects, nuniqueOpt, List.card_toFinset, List.filterMap_map]
    rfl
  have h2 : activeProjects d l =
      ((l.filter (activeTodayFlag d)).filterMap Row.projectName).toFinset.card := by
    rw [activeProjects, nuniqueOpt, List.card_toFinset, List.filterMap_map]
    rfl
  refine ⟨h1, h2, ?_⟩
  rw [h1, h2]
  apply Finset.card_le_card
  intro x hx
  simp only [List.mem_toFinset, List.mem_filterMap, List.mem_filter] at hx ⊢
  obtain ⟨r, ⟨hr, _⟩, hname⟩ := hx
  exact ⟨r, hr, hname⟩

/-- A `filterMap` by a function returning `some` on every element keeps the
length. -/
theorem length_filterMap_isSome {α β : Type} (f : α → Option β) :
    ∀ l : List α, (∀ x ∈ l, (f x).isSome = true) →
      (l.filterMap f).length = l.length := by
  intro l
  induction l with
  | nil => intro _; rfl
  | cons x t ih =>
    intro h
    rcases Option.isSome_iff_exists.mp (h x (List.mem_cons_self x t)) with ⟨b, hb⟩
    rw [List.filterMap_cons_some hb, List.length_cons, List.length_cons,
      ih (fun y hy => h y (List.mem_cons_of_mem x hy))]

/-- The four per-phase occurrence counts of a list of phases cover it. -/
theorem count_phases_total (ps : List Phase) :
    ps.count .programming + ps.count .schematicDesign +
      ps.count .designDevelopment + ps.count .constructionDocuments =
      ps.length := by
  induction ps with
  | nil => rfl
  | cons p t ih => cases p <;> (simp [List.count_cons]; omega)

/-- The record `name "Y", number "1"`, active on day 5 (Programming 0-10). -/
def rowY1 : Row :=
  ⟨some (cp "Y"), some (.txt (cp "1")), none, some 0, some 10, none, none, none⟩

/-- The record `name "Y", number "2"`, active on day 5 (Programming 0-10). -/
def rowY2 : Row :=
  ⟨some (cp "Y"), some (.txt (cp "2")), none, some 0, some 10, none, none, none⟩

/-- C10: every active record of the filtered set increments exactly one of
the four per-phase counters, so their sum equals the number of active row
occurrences; on two active records sharing the name `Y`, the sum (2) exceeds
the `Active Today` metric (1), which counts distinct names. -/
theorem C10_phase_counts_sum (d : Date) (l : List Row) :
    (phaseCounts d l Phase.programming + phaseCounts d l Phase.schematicDesign +
        phaseCounts d l Phase.designDevelopment +
        phaseCounts d l Phase.constructionDocuments =
      (l.filter (activeTodayFlag d)).length)
    ∧ phaseCounts 5 [rowY1, rowY2] Phase.programming +
        phaseCounts 5 [rowY1, rowY2] Phase.schematicDesign +
        phaseCounts 5 [rowY1, rowY2] Phase.designDevelopment +
        phaseCounts 5 [rowY1, rowY2] Phase.constructionDocuments >
      activeProjects 5 [rowY1, rowY2] := by
  constructor
  · have hall : ∀ r ∈ l.filter (activeTodayFlag d),
        (firstActivePhase d r).isSome = true := by
      intro r hr
      rw [firstActivePhase, findSome?_pbFirst_isSome]
      exact (List.mem_filter.mp hr).2
    rw [phaseCounts, phaseCounts, phaseCounts, phaseCounts, count_phases_total,
      length_filterMap_isSome _ _ hall]
  · decide

/-- Column value at sort position `i`: the value of the row index stored at
`t[i]` (numpy's argsort keeps the values fixed and permutes an index array). -/
def idxVal (v : Array Str) (t : Array Nat) (i : Nat) : Str :=
  v.getD (t.getD i 0) []

/-- Swap two entries of the index array (`INTP_SWAP`). -/
def aswap (t : Array Nat) (i j : Nat) : Array Nat :=
  let x := t.getD i 0
  let y := t.getD j 0
  (t.setD i y).setD j x

/-- The `do ++pi; while (v[tosort[pi]] < vp)` scan of numpy's quicksort
partition: first position after `i` whose value is not below the pivot.  The
fuel argument only bounds the recursion; one pass over the array always
suffices. -/
def scanUp (v : Array Str) (t : Array Nat) (vp : Str) : Nat → Nat → Nat
  | i, 0 => i + 1
  | i, fuel + 1 =>
      let j := i + 1
      if cpLt (idxVal v t j) vp then scanUp v t vp j fuel else j

/-- The `do --pj; while (vp < v[tosort[pj]])` scan: first position before `i`
whose value is not above the pivot. -/
def scanDown (v : Array Str) (t : Array Nat) (vp : Str) : Nat → Nat → Nat
  | i, 0 => i - 1
  | i, fuel + 1 =>
      let j := i - 1
      if cpLt vp (idxVal v t j) then scanDown v t vp j fuel else j

/-- The crossing-scan exchange loop of the partition: scan up, scan down,
stop when the scans cross, otherwise swap and continue. -/
def partLoop (v : Array Str) (vp : Str) : Array Nat → Nat → Nat → Nat → Array Nat × Nat
  | t, _, _, 0 => (t, 0)
  | t, pi, pj, fuel + 1 =>
      let pi2 := scanUp v t vp pi t.size
      let pj2 := scanDown v t vp pj t.size
      if pi2 ≥ pj2 then (t, pi2)
      else partLoop v vp (aswap t pi2 pj2) pi2 pj2 fuel

/-- One partition step of numpy's `npy_aquicksort`: median-of-three pivot
selection between positions `pl`, `pm`, `pr`, pivot parked at `pr - 1`,
crossing scans from `pl` and `pr - 1`, pivot swapped back to the crossing
point.  Equal elements are swapped across the pivot by the crossing scans —
the source of the instability. -/
def partitionStep (v : Array Str) (t : Array Nat) (pl pr : Nat) : Array Nat × Nat :=
  let pm := pl + (pr - pl) / 2
  let t := if cpLt (idxVal v t pm) (idxVal v t pl) then aswap t pm pl else t
  let t := if cpLt (idxVal v t pr) (idxVal v t pm) then aswap t pr pm else t
  let t := if cpLt (idxVal v t pm) (idxVal v t pl) then aswap t pm pl else t
  let vp := idxVal v t pm
  let t := aswap t pm (pr - 1)
  let pres := partLoop v vp t pl (pr - 1) (t.size + 1)
  let t2 := aswap pres.1 pres.2 (pr - 1)
  (t2, pres.2)

/-- The shift loop of the small-segment insertion sort: move larger values up
one slot, then drop the saved index in place. -/
def insShift (v : Array Str) (vi : Nat) (pl : Nat) : Array Nat → Nat → Nat → Array Nat
  | t, pj, 0 => t.setD pj vi
  | t, pj, fuel + 1 =>
      if pj > pl && cpLt (v.getD vi []) (idxVal v t (pj - 1)) then
        insShift v vi pl (t.setD pj (t.getD (pj - 1) 0)) (pj - 1) fuel
      else t.setD pj vi

/-- Insertion sort of the segment `pl..pr`, run by numpy on sub-ranges of at
most 16 elements. -/
def insSeg (v : Array Str) (pl pr : Nat) : Array Nat → Nat → Nat → Array Nat
  | t, _, 0 => t
  | t, pi, fuel + 1 =>
      if pi ≤ pr then
        insSeg v pl pr (insShift v (t.getD pi 0) pl t pi t.size) (pi + 1) fuel
      else t

/-- The outer loop of `npy_aquicksort`: partition while the segment holds
more than 16 elements (`pr - pl > SMALL_QUICKSORT = 15`), recurse into the
smaller side keeping the larger on an explicit stack, finish segments by
insertion sort, then pop the stack.  The introsort heapsort fallback (taken
only after `2*floor(log2 n)` partition steps) is omitted: for the sizes
evaluated here a single partition step occurs, far below the depth limit. -/
def qsortOuter (v : Array Str) : Array Nat → Nat → Nat → List (Nat × Nat) → Nat → Array Nat
  | t, _, _, _, 0 => t
  | t, pl, pr, stack, fuel + 1 =>
      if pr - pl > 15 then
        let pres := partitionStep v t pl pr
        let t2 := pres.1
        let pi := pres.2
        if pi - pl < pr - pi then
          qsortOuter v t2 pl (pi - 1) ((pi + 1, pr) :: stack) fuel
        else
          qsortOuter v t2 (pi + 1) pr ((pl, pi - 1) :: stack) fuel
      else
        let t2 := insSeg v pl pr t (pl + 1) (t.size + 1)
        match stack with
        | [] => t2
        | (a, b) :: rest => qsortOuter v t2 a b rest fuel

/-- numpy `ndarray.argsort` with the default `kind="quicksort"` (the generic
comparison-based `npy_aquicksort`, used for object-dtype columns such as the
string columns here): returns the index permutation. -/
def aquicksort (v : Array Str) : Array Nat :=
  let n := v.size
  let t := (List.range n).toArray
  if n > 0 then qsortOuter v t 0 (n - 1) [] (n + 2) else t

/-- pandas `nargsort` (`pandas/core/sorting.py`), as called by `sort_values`
on a single column with `ascending=True` and the default
`na_position="last"`: missing positions are set aside, the non-missing values
are argsorted with the requested kind, and the missing positions are appended
at the end. -/
def nargsortModel (xs : List (Option Str)) : List Nat :=
  let idx := List.range xs.length
  let nonNan := idx.filter (fun i => (xs.getD i none).isSome)
  let nans := idx.filter (fun i => !(xs.getD i none).isSome)
  let vals : Array Str := ((nonNan.map (fun i => (xs.getD i none).getD [])).toArray)
  let order := (aquicksort vals).toList
  order.map (fun k => nonNan.getD k 0) ++ nans

/-- The `Project Name` sort branch (`app.py` lines 120-124):
`sort_values(by=["Project Name"], ascending=True)` reorders the rows by the
`nargsort` indexer (numpy's default quicksort on the single column; the
indexer is a permutation of the valid indices, so the `getD` default is never
used). -/
def sortByName (l : List Row) : List Row :=
  (nargsortModel (l.map Row.projectName)).map (fun i => l.getD i emptyRow)

/-- Seventeen records, all named `P`, distinguished by their numbers
`"0" .. "16"`. -/
def rows17 : List Row :=
  (List.range 17).map fun i =>
    ⟨some (cp "P"), some (.txt (natDigits i)), none, none, none, none, none, none⟩

/-- C5 as stated fails on the code: the single-column `Project Name` sort key
runs numpy's default quicksort, which is not stable — seventeen records with
identical names (all mutual ties) come back in a different order, because the
first partition step swaps equal elements across the pivot. -/
theorem C5_counterexample :
    (∀ r ∈ rows17, r.projectName = some (cp "P")) ∧ sortByName rows17 ≠ rows17 :=
  ⟨by decide, by decide⟩
